import Mathlib

/-!
# Broker core of `example/logging.cpp`

A shallow embedding of the server side of `example/logging.cpp`: the
subscription container `mi_sub_con`, `close_proc`, and the handlers that
`server_proc` installs on every accepted endpoint.

* A session handle (`con_sp_t`, a `std::shared_ptr` compared by address) is a
  natural number: the identity of the endpoint it points to.
* `std::set<con_sp_t>` is a `Finset con_sp_t`.
* The `boost::multi_index_container` is the list of its elements in insertion
  order.  Both indices are `ordered_non_unique`: an index presents the
  elements sorted by its key, each inserted at the upper bound of its key
  (`get_index`), and `equal_range` delimits a block of that sequence.
* Calls made on an endpoint (`connack`, `suback`, `unsuback`, `publish`) are
  recorded, in order, in the list `calls` of the handler's outcome.
* The only endpoint call made inside a loop is `publish`; whether such a call
  throws is given by a parameter `throws`.  No handler contains a `try`
  block, so a thrown exception leaves the handler at once.  The calls
  `connack`, `suback` and `unsuback` are the last statement before
  `return true` and are taken to return.
-/

namespace MqttBroker

/-- Session handle `con_sp_t = std::shared_ptr<con_t>`; ordered and compared by
the address it holds. -/
abbrev con_sp_t := Nat

/-- `MQTT_NS::buffer`: a string compared by content. -/
abbrev buffer := String

/-- `packet_id_t`: a 16 bit packet identifier, only passed through. -/
abbrev packet_id_t := Nat

/-- Modelled from the spec: the library enum `MQTT_NS::qos` is not part of the
sources; the three levels at-most-once, at-least-once, exactly-once. -/
inductive qos where
  | at_most_once
  | at_least_once
  | exactly_once
  deriving DecidableEq, Repr

/-- Underlying value of a `qos` enumerator (0, 1, 2); the built-in `<` of the
scoped enum compares these. -/
def qos.toNat : qos → Nat
  | .at_most_once => 0
  | .at_least_once => 1
  | .exactly_once => 2

/-- `std::min(a, b)` on `qos`: `(b < a) ? b : a`. -/
def std_min (a b : qos) : qos :=
  if b.toNat < a.toNat then b else a

/-- Modelled from the spec: the library enum `MQTT_NS::suback_return_code` is
not part of the sources; one acknowledgement code per granted QoS level and a
failure code. -/
inductive suback_return_code where
  | success_maximum_qos_0
  | success_maximum_qos_1
  | success_maximum_qos_2
  | failure
  deriving DecidableEq, Repr

/-- Modelled from the spec: the library function
`MQTT_NS::qos_to_suback_return_code` is not part of the sources; the code that
grants the requested QoS unchanged. -/
def qos_to_suback_return_code : qos → suback_return_code
  | .at_most_once => .success_maximum_qos_0
  | .at_least_once => .success_maximum_qos_1
  | .exactly_once => .success_maximum_qos_2

/-- The QoS level an acknowledgement code grants, if any. -/
def suback_return_code.granted : suback_return_code → Option qos
  | .success_maximum_qos_0 => some .at_most_once
  | .success_maximum_qos_1 => some .at_least_once
  | .success_maximum_qos_2 => some .exactly_once
  | .failure => none

/-- Modelled from the spec: the library enum `MQTT_NS::connect_return_code` is
not part of the sources; the handlers only use `accepted`. -/
inductive connect_return_code where
  | accepted
  | unacceptable_protocol_version
  | identifier_rejected
  | server_unavailable
  | bad_user_name_or_password
  | not_authorized
  deriving DecidableEq, Repr

/-- `MQTT_NS::publish_options`: the dup flag, the QoS and the retain flag. -/
structure publish_options where
  dup : Bool
  qos_value : qos
  retain : Bool
  deriving DecidableEq, Repr

/-- The accessor `publish_options::get_qos`. -/
def publish_options.get_qos (o : publish_options) : qos := o.qos_value

/-- `MQTT_NS::subscribe_options`: the handlers read only the requested QoS. -/
structure subscribe_options where
  qos_value : qos
  deriving DecidableEq, Repr

/-- The accessor `subscribe_options::get_qos`. -/
def subscribe_options.get_qos (o : subscribe_options) : qos := o.qos_value

/-- The element type `sub_con` of the subscription container. -/
structure sub_con where
  topic : buffer
  con : con_sp_t
  qos_value : qos
  deriving DecidableEq, Repr

/-- The container `mi_sub_con`, as the list of its elements in insertion
order. -/
abbrev mi_sub_con := List sub_con

/-- Key of the `tag_topic` index: the characters of the topic, which
`std::less` on buffers compares lexicographically. -/
def sub_con.topic_key (e : sub_con) : List Char := e.topic.data

/-- Modelled from the spec: Boost.MultiIndex is library code; insertion of `x`
in an `ordered_non_unique` index with key `key`: at the upper bound of its
key, that is before the first element with a greater key. -/
def ordered_insert {κ : Type} [LinearOrder κ] (key : sub_con → κ) (x : sub_con) :
    List sub_con → List sub_con
  | [] => [x]
  | y :: ys => if key x < key y then x :: y :: ys else y :: ordered_insert key x ys

/-- Modelled from the spec: Boost.MultiIndex is library code; the sequence an
`ordered_non_unique` index with key `key` presents for a container whose
elements were inserted in the order of `subs`. -/
def get_index {κ : Type} [LinearOrder κ] (key : sub_con → κ) (subs : List sub_con) :
    List sub_con :=
  subs.foldl (fun idx x => ordered_insert key x idx) []

/-- Modelled from the spec: Boost.MultiIndex is library code; `equal_range(k)`
on an ordered index: the elements from the lower bound of `k` (the first
element whose key is not less than `k`) up to its upper bound (the first
element whose key is greater than `k`). -/
def equal_range {κ : Type} [LinearOrder κ] (key : sub_con → κ) (idx : List sub_con) (k : κ) :
    List sub_con :=
  (idx.dropWhile (fun y => decide (key y < k))).takeWhile (fun y => !decide (k < key y))

/-- The index `subs.get<tag_topic>()`. -/
def mi_sub_con.get_tag_topic (subs : mi_sub_con) : List sub_con :=
  get_index sub_con.topic_key subs

/-- The index `subs.get<tag_con>()`. -/
def mi_sub_con.get_tag_con (subs : mi_sub_con) : List sub_con :=
  get_index sub_con.con subs

/-- Modelled from the spec: Boost.MultiIndex is library code; `emplace` with
two non-unique indices never fails, the new element is the last one
inserted. -/
def mi_sub_con.emplace (subs : mi_sub_con) (topic : buffer) (con : con_sp_t)
    (qos_value : qos) : mi_sub_con :=
  subs ++ [⟨topic, con, qos_value⟩]

/-- Modelled from the spec: Boost.MultiIndex is library code;
`idx.erase(first, last)` takes the elements of the range `r` out of the
container, the others keep their order.  The ranges erased are results of
`equal_range`, which hold every element with the key, so an element equal to
one of the range is in the range. -/
def mi_sub_con.erase_range (subs : mi_sub_con) (r : List sub_con) : mi_sub_con :=
  subs.filter (fun e => decide (e ∉ r))

/-- Modelled from the spec: Boost.MultiIndex is library code; `subs.erase(key)`
acts on the first index (`tag_topic`) and erases its `equal_range(key)`. -/
def mi_sub_con.erase_key (subs : mi_sub_con) (topic : buffer) : mi_sub_con :=
  subs.erase_range (equal_range sub_con.topic_key subs.get_tag_topic topic.data)

/-- A call made on an endpoint by a server handler. -/
inductive call where
  | connack (con : con_sp_t) (session_present : Bool) (rc : connect_return_code)
  | suback (con : con_sp_t) (packet_id : packet_id_t) (res : List suback_return_code)
  | unsuback (con : con_sp_t) (packet_id : packet_id_t)
  | publish (con : con_sp_t) (topic_name contents : buffer) (qos_value : qos)
  deriving DecidableEq, Repr

/-- The two variables every handler captures by reference: `connections` and
`subs` of `main`. -/
structure broker where
  connections : Finset con_sp_t
  subs : mi_sub_con
  deriving DecidableEq

/-- What a handler leaves behind: the two captured variables, the endpoint
calls it made (in order, a throwing call included as the last one), and
whether it ran to its end (`false`: an exception left the handler). -/
structure outcome where
  st : broker
  calls : List call
  completed : Bool
  deriving DecidableEq

/-- The function `close_proc`. -/
def close_proc (cons : Finset con_sp_t) (subs : mi_sub_con) (con : con_sp_t) :
    Finset con_sp_t × mi_sub_con :=
  let cons1 := cons.erase con
  let idx := subs.get_tag_con
  let r := equal_range sub_con.con idx con
  let subs1 := subs.erase_range r
  (cons1, subs1)

/-- `close_proc` on the two captured variables. -/
def broker.close (st : broker) (con : con_sp_t) : broker :=
  ⟨(close_proc st.connections st.subs con).1, (close_proc st.connections st.subs con).2⟩

/-- The endpoint close handler: `close_proc(connections, subs, sp)`. -/
def close_handler (st : broker) (sp : con_sp_t) : outcome :=
  ⟨st.close sp, [], true⟩

/-- The endpoint error handler: logs `ec`, then `close_proc`. -/
def error_handler (st : broker) (sp : con_sp_t) (_ec : Nat) : outcome :=
  ⟨st.close sp, [], true⟩

/-- The connect handler: inserts the session in `connections` and sends
`connack(false, accepted)`.  The arguments are only logged (the will not even
that). -/
def connect_handler (st : broker) (sp : con_sp_t) (_client_id : buffer)
    (_username _password : Option buffer) (_clean_session : Bool) (_keep_alive : Nat) :
    outcome :=
  ⟨⟨insert sp st.connections, st.subs⟩,
   [call.connack sp false connect_return_code.accepted], true⟩

/-- The disconnect handler: `close_proc(connections, subs, sp)`. -/
def disconnect_handler (st : broker) (sp : con_sp_t) : outcome :=
  ⟨st.close sp, [], true⟩

/-- The loop of the publish handler over the range `r`: one `publish` call per
element, at `std::min(qos_value, pubopts.get_qos())`.  The result is the list
of calls made and whether the loop reached `r.second`; a call that throws ends
the loop. -/
def publish_loop (throws : con_sp_t → buffer → buffer → qos → Bool)
    (topic_name contents : buffer) (pubqos : qos) : List sub_con → List call × Bool
  | [] => ([], true)
  | e :: rest =>
    let q := std_min e.qos_value pubqos
    if throws e.con topic_name contents q then
      ([call.publish e.con topic_name contents q], false)
    else
      let r := publish_loop throws topic_name contents pubqos rest
      (call.publish e.con topic_name contents q :: r.1, r.2)

/-- The publish handler (it captures only `subs`). -/
def publish_handler (throws : con_sp_t → buffer → buffer → qos → Bool) (st : broker)
    (_packet_id : Option packet_id_t) (pubopts : publish_options)
    (topic_name contents : buffer) : outcome :=
  let idx := st.subs.get_tag_topic
  let r := equal_range sub_con.topic_key idx topic_name.data
  let l := publish_loop throws topic_name contents pubopts.get_qos r
  ⟨st, l.1, l.2⟩

/-- One pass of the subscribe handler's loop body: push the acknowledgement
code, then `subs.emplace(topic, sp, qos_value)`. -/
def subscribe_step (sp : con_sp_t) (acc : List suback_return_code × mi_sub_con)
    (e : buffer × subscribe_options) : List suback_return_code × mi_sub_con :=
  let topic := e.1
  let qos_value := e.2.get_qos
  (acc.1 ++ [qos_to_suback_return_code qos_value], acc.2.emplace topic sp qos_value)

/-- The subscribe handler: the loop over `entries`, then one
`suback(packet_id, res)` to the session. -/
def subscribe_handler (st : broker) (sp : con_sp_t) (packet_id : packet_id_t)
    (entries : List (buffer × subscribe_options)) : outcome :=
  let r := entries.foldl (subscribe_step sp) ([], st.subs)
  ⟨⟨st.connections, r.2⟩, [call.suback sp packet_id r.1], true⟩

/-- The unsubscribe handler: `subs.erase(topic)` for each topic in order, then
one `unsuback(packet_id)` to the session. -/
def unsubscribe_handler (st : broker) (sp : con_sp_t) (packet_id : packet_id_t)
    (topics : List buffer) : outcome :=
  let subs1 := topics.foldl (fun s topic => mi_sub_con.erase_key s topic) st.subs
  ⟨⟨st.connections, subs1⟩, [call.unsuback sp packet_id], true⟩

/-- An event the endpoint delivers to one of the handlers set in the accept
handler of `server_proc`. -/
inductive event where
  | close
  | error (ec : Nat)
  | connect (client_id : buffer) (username password : Option buffer)
      (clean_session : Bool) (keep_alive : Nat)
  | disconnect
  | puback (packet_id : packet_id_t)
  | pubrec (packet_id : packet_id_t)
  | pubrel (packet_id : packet_id_t)
  | pubcomp (packet_id : packet_id_t)
  | publish (packet_id : Option packet_id_t) (pubopts : publish_options)
      (topic_name contents : buffer)
  | subscribe (packet_id : packet_id_t) (entries : List (buffer × subscribe_options))
  | unsubscribe (packet_id : packet_id_t) (topics : List buffer)
  deriving DecidableEq

/-- The handlers of `server_proc`: the event `ev` of the endpoint `sp` runs
the handler set for it. -/
def server_proc (throws : con_sp_t → buffer → buffer → qos → Bool) (st : broker)
    (sp : con_sp_t) : event → outcome
  | .close => close_handler st sp
  | .error ec => error_handler st sp ec
  | .connect cid u p cs ka => connect_handler st sp cid u p cs ka
  | .disconnect => disconnect_handler st sp
  | .puback _ => ⟨st, [], true⟩
  | .pubrec _ => ⟨st, [], true⟩
  | .pubrel _ => ⟨st, [], true⟩
  | .pubcomp _ => ⟨st, [], true⟩
  | .publish pid o t c => publish_handler throws st pid o t c
  | .subscribe pid es => subscribe_handler st sp pid es
  | .unsubscribe pid ts => unsubscribe_handler st sp pid ts

/-- The state after a sequence of events, each with the endpoint it belongs
to, starting from `st`.  The publish handler changes neither variable, also
when an exception leaves it, so the trace goes on from the same state. -/
def run (throws : con_sp_t → buffer → buffer → qos → Bool) (st : broker) :
    List (con_sp_t × event) → broker
  | [] => st
  | (sp, ev) :: rest => run throws (server_proc throws st sp ev).st rest

/-- The state of `main` before the server starts: no connection, no
subscription. -/
def broker.init : broker := ⟨∅, []⟩

/-- Every subscription is owned by a session of `connections`. -/
def owned (st : broker) : Prop :=
  ∀ e ∈ st.subs, e.con ∈ st.connections

instance (st : broker) : Decidable (owned st) := by
  unfold owned; infer_instance

/-- Whether the event is not a subscribe, or is a subscribe of a session that
is in `connections`. -/
def subscribe_guard (st : broker) (sp : con_sp_t) : event → Bool
  | .subscribe _ _ => decide (sp ∈ st.connections)
  | _ => true

/-- Whether every subscribe event of the trace comes from a session that is in
`connections` when the event is handled. -/
def subscribers_connected (throws : con_sp_t → buffer → buffer → qos → Bool) :
    broker → List (con_sp_t × event) → Bool
  | _, [] => true
  | st, (sp, ev) :: rest =>
    subscribe_guard st sp ev
      && subscribers_connected throws (server_proc throws st sp ev).st rest

/-- The oracle of endpoints whose `publish` never throws. -/
def no_throw : con_sp_t → buffer → buffer → qos → Bool := fun _ _ _ _ => false

/-- The scenario of the concrete tests: session 1 holds `t1` at QoS 0 and
`t2` at QoS 1, session 2 holds `t2` at QoS 2. -/
def scenario : broker :=
  ⟨{1, 2}, [⟨"t1", 1, .at_most_once⟩, ⟨"t2", 1, .at_least_once⟩, ⟨"t2", 2, .exactly_once⟩]⟩

/-! ## Lemmas on the ordered indices -/

section index_lemmas

variable {κ : Type} [LinearOrder κ] (key : sub_con → κ)

theorem ordered_insert_mem (x z : sub_con) (idx : List sub_con) :
    z ∈ ordered_insert key x idx ↔ z = x ∨ z ∈ idx := by
  induction idx with
  | nil => simp [ordered_insert]
  | cons y ys ih =>
    by_cases h : key x < key y
    · simp [ordered_insert, h]
    · simp only [ordered_insert, h, if_false, List.mem_cons, ih]
      tauto

theorem ordered_insert_sorted (x : sub_con) (idx : List sub_con)
    (hs : idx.Pairwise (fun a b => key a ≤ key b)) :
    (ordered_insert key x idx).Pairwise (fun a b => key a ≤ key b) := by
  induction idx with
  | nil => simp [ordered_insert]
  | cons y ys ih =>
    rw [List.pairwise_cons] at hs
    by_cases h : key x < key y
    · simp only [ordered_insert, h, if_true, List.pairwise_cons]
      refine ⟨?_, hs.1, hs.2⟩
      intro z hz
      rcases List.mem_cons.1 hz with rfl | hz
      · exact le_of_lt h
      · exact le_trans (le_of_lt h) (hs.1 z hz)
    · simp only [ordered_insert, h, if_false, List.pairwise_cons]
      refine ⟨?_, ih hs.2⟩
      intro z hz
      rcases (ordered_insert_mem key x z ys).1 hz with rfl | hz
      · exact not_lt.1 h
      · exact hs.1 z hz

theorem filter_key_eq_nil_of_lt (k : κ) (l : List sub_con)
    (h : ∀ z ∈ l, k < key z) : l.filter (fun e => decide (key e = k)) = [] := by
  rw [List.filter_eq_nil_iff]
  intro z hz
  simpa using ne_of_gt (h z hz)

theorem ordered_insert_filter (x : sub_con) (k : κ) (idx : List sub_con)
    (hs : idx.Pairwise (fun a b => key a ≤ key b)) :
    (ordered_insert key x idx).filter (fun e => decide (key e = k))
      = idx.filter (fun e => decide (key e = k)) ++ (if key x = k then [x] else []) := by
  induction idx with
  | nil => by_cases hx : key x = k <;> simp [ordered_insert, hx]
  | cons y ys ih =>
    rw [List.pairwise_cons] at hs
    by_cases h : key x < key y
    · simp only [ordered_insert, h, if_true]
      by_cases hx : key x = k
      · have hnil : (y :: ys).filter (fun e => decide (key e = k)) = [] := by
          apply filter_key_eq_nil_of_lt
          intro z hz
          rcases List.mem_cons.1 hz with rfl | hz
          · exact hx ▸ h
          · exact lt_of_lt_of_le (hx ▸ h) (hs.1 z hz)
        rw [List.filter_cons, hnil]
        simp [hx]
      · rw [List.filter_cons]
        simp [hx]
    · simp only [ordered_insert, h, if_false]
      rw [List.filter_cons, ih hs.2, List.filter_cons]
      by_cases hy : key y = k <;> simp [hy]

theorem foldl_insert_sorted (subs idx : List sub_con)
    (hs : idx.Pairwise (fun a b => key a ≤ key b)) :
    (subs.foldl (fun i x => ordered_insert key x i) idx).Pairwise
      (fun a b => key a ≤ key b) := by
  induction subs generalizing idx with
  | nil => simpa using hs
  | cons x rest ih => exact ih _ (ordered_insert_sorted key x idx hs)

theorem foldl_insert_filter (k : κ) (subs idx : List sub_con)
    (hs : idx.Pairwise (fun a b => key a ≤ key b)) :
    (subs.foldl (fun i x => ordered_insert key x i) idx).filter (fun e => decide (key e = k))
      = idx.filter (fun e => decide (key e = k))
        ++ subs.filter (fun e => decide (key e = k)) := by
  induction subs generalizing idx with
  | nil => simp
  | cons x rest ih =>
    rw [List.foldl_cons, ih _ (ordered_insert_sorted key x idx hs),
      ordered_insert_filter key x k idx hs, List.filter_cons]
    by_cases hx : key x = k <;> simp [hx]

theorem takeWhile_le_eq_filter (k : κ) (l : List sub_con)
    (hs : l.Pairwise (fun a b => key a ≤ key b)) (hk : ∀ z ∈ l, k ≤ key z) :
    l.takeWhile (fun y => !decide (k < key y)) = l.filter (fun e => decide (key e = k)) := by
  induction l with
  | nil => rfl
  | cons y ys ih =>
    rw [List.pairwise_cons] at hs
    have hy := hk y (List.mem_cons_self _ _)
    rcases eq_or_lt_of_le hy with he | hl
    · have ih2 := ih hs.2 (fun z hz => hk z (List.mem_cons_of_mem _ hz))
      rw [List.takeWhile_cons, List.filter_cons, ih2]
      simp [← he]
    · rw [List.takeWhile_cons]
      simp only [hl, decide_True, Bool.not_true]
      symm
      apply filter_key_eq_nil_of_lt
      intro z hz
      rcases List.mem_cons.1 hz with rfl | hz
      · exact hl
      · exact lt_of_lt_of_le hl (hs.1 z hz)

theorem equal_range_sorted (k : κ) (idx : List sub_con)
    (hs : idx.Pairwise (fun a b => key a ≤ key b)) :
    equal_range key idx k = idx.filter (fun e => decide (key e = k)) := by
  induction idx with
  | nil => rfl
  | cons y ys ih =>
    have hs2 := hs
    rw [List.pairwise_cons] at hs2
    by_cases h : key y < k
    · have := ih hs2.2
      unfold equal_range at this ⊢
      rw [List.dropWhile_cons, List.filter_cons]
      simp only [h, decide_True, if_true, ne_of_lt h, decide_False]
      simpa using this
    · unfold equal_range
      rw [List.dropWhile_cons]
      simp only [h, decide_False]
      apply takeWhile_le_eq_filter key k (y :: ys) hs
      intro z hz
      rcases List.mem_cons.1 hz with rfl | hz
      · exact not_lt.1 h
      · exact le_trans (not_lt.1 h) (hs2.1 z hz)

theorem get_index_sorted (subs : List sub_con) :
    (get_index key subs).Pairwise (fun a b => key a ≤ key b) :=
  foldl_insert_sorted key subs [] List.Pairwise.nil

theorem ordered_insert_perm (x : sub_con) (idx : List sub_con) :
    (ordered_insert key x idx).Perm (x :: idx) := by
  induction idx with
  | nil => simp [ordered_insert]
  | cons y ys ih =>
    by_cases h : key x < key y
    · simp [ordered_insert, h]
    · simp only [ordered_insert, h, if_false]
      exact ((List.Perm.cons y ih).trans (List.Perm.swap x y ys))

theorem foldl_insert_perm (subs idx : List sub_con) :
    (subs.foldl (fun i x => ordered_insert key x i) idx).Perm (idx ++ subs) := by
  induction subs generalizing idx with
  | nil => simp
  | cons x rest ih =>
    rw [List.foldl_cons]
    refine (ih _).trans ?_
    refine ((ordered_insert_perm key x idx).append_right rest).trans ?_
    simpa using (@List.perm_middle _ x idx rest).symm

theorem get_index_perm (subs : List sub_con) : (get_index key subs).Perm subs := by
  simpa [get_index] using foldl_insert_perm key subs []

theorem ordered_insert_of_lt (x : sub_con) (l : List sub_con)
    (h : ∀ z ∈ l, key x < key z) : ordered_insert key x l = x :: l := by
  cases l with
  | nil => rfl
  | cons y ys => simp [ordered_insert, h y (List.mem_cons_self _ _)]

theorem ordered_insert_filter_comm (p : sub_con → Bool) (x : sub_con) (idx : List sub_con)
    (hs : idx.Pairwise (fun a b => key a ≤ key b)) :
    (ordered_insert key x idx).filter p
      = if p x then ordered_insert key x (idx.filter p) else idx.filter p := by
  induction idx with
  | nil => by_cases hx : p x <;> simp [ordered_insert, hx]
  | cons y ys ih =>
    have hs2 := hs
    rw [List.pairwise_cons] at hs2
    by_cases h : key x < key y
    · have hlt : ∀ z ∈ (y :: ys).filter p, key x < key z := by
        intro z hz
        rcases List.mem_cons.1 (List.mem_filter.1 hz).1 with rfl | hz2
        · exact h
        · exact lt_of_lt_of_le h (hs2.1 z hz2)
      rw [ordered_insert_of_lt key x _ hlt]
      simp only [ordered_insert, h, if_true]
      by_cases hx : p x <;> simp [List.filter_cons, hx]
    · simp only [ordered_insert, h, if_false]
      rw [List.filter_cons, ih hs2.2, List.filter_cons]
      by_cases hx : p x <;> by_cases hy : p y <;> simp [hx, hy, ordered_insert, h]

theorem foldl_insert_filter_comm (p : sub_con → Bool) (subs idx : List sub_con)
    (hs : idx.Pairwise (fun a b => key a ≤ key b)) :
    (subs.filter p).foldl (fun i x => ordered_insert key x i) (idx.filter p)
      = (subs.foldl (fun i x => ordered_insert key x i) idx).filter p := by
  induction subs generalizing idx with
  | nil => simp
  | cons x rest ih =>
    rw [List.foldl_cons, ← ih _ (ordered_insert_sorted key x idx hs),
      ordered_insert_filter_comm key p x idx hs, List.filter_cons]
    by_cases hx : p x <;> simp [hx]

/-- Erasing elements from the container removes them from the index and leaves
the other elements of the index in their order. -/
theorem get_index_filter (p : sub_con → Bool) (subs : List sub_con) :
    get_index key (subs.filter p) = (get_index key subs).filter p := by
  simpa [get_index] using foldl_insert_filter_comm key p subs [] List.Pairwise.nil

theorem equal_range_get_index (k : κ) (subs : List sub_con) :
    equal_range key (get_index key subs) k = subs.filter (fun e => decide (key e = k)) := by
  unfold get_index
  rw [equal_range_sorted key k _ (foldl_insert_sorted key subs [] List.Pairwise.nil),
    foldl_insert_filter key k subs [] List.Pairwise.nil]
  simp

end index_lemmas

/-! ## Lemmas on the container operations and the loops -/

theorem equal_range_tag_topic (subs : mi_sub_con) (T : buffer) :
    equal_range sub_con.topic_key subs.get_tag_topic T.data
      = subs.filter (fun e => decide (e.topic = T)) := by
  unfold mi_sub_con.get_tag_topic
  rw [equal_range_get_index]
  apply List.filter_congr
  intro e _
  simp [sub_con.topic_key, String.ext_iff]

theorem equal_range_tag_con (subs : mi_sub_con) (c : con_sp_t) :
    equal_range sub_con.con subs.get_tag_con c
      = subs.filter (fun e => decide (e.con = c)) := by
  unfold mi_sub_con.get_tag_con
  rw [equal_range_get_index]

theorem erase_key_eq (subs : mi_sub_con) (T : buffer) :
    subs.erase_key T = subs.filter (fun e => decide (e.topic ≠ T)) := by
  unfold mi_sub_con.erase_key mi_sub_con.erase_range
  rw [equal_range_tag_topic]
  apply List.filter_congr
  intro e he
  by_cases h : e.topic = T <;> simp [List.mem_filter, he, h]

theorem close_proc_eq (S : Finset con_sp_t) (R : mi_sub_con) (c : con_sp_t) :
    close_proc S R c = (S.erase c, R.filter (fun e => decide (e.con ≠ c))) := by
  simp only [close_proc, mi_sub_con.erase_range, equal_range_tag_con, Prod.mk.injEq,
    true_and]
  apply List.filter_congr
  intro e he
  by_cases h : e.con = c <;> simp [List.mem_filter, he, h]

theorem std_min_toNat (a b : qos) : (std_min a b).toNat = min a.toNat b.toNat := by
  cases a <;> cases b <;> decide

theorem publish_loop_all (throws : con_sp_t → buffer → buffer → qos → Bool)
    (T P : buffer) (q : qos) (l : List sub_con)
    (h : ∀ e ∈ l, throws e.con T P (std_min e.qos_value q) = false) :
    publish_loop throws T P q l
      = (l.map (fun e => call.publish e.con T P (std_min e.qos_value q)), true) := by
  induction l with
  | nil => rfl
  | cons e rest ih =>
    have he := h e (List.mem_cons_self _ _)
    have hr := ih (fun x hx => h x (List.mem_cons_of_mem _ hx))
    simp [publish_loop, he, hr]

theorem publish_loop_throw (throws : con_sp_t → buffer → buffer → qos → Bool)
    (T P : buffer) (q : qos) (pre : List sub_con) (e : sub_con) (post : List sub_con)
    (hpre : ∀ x ∈ pre, throws x.con T P (std_min x.qos_value q) = false)
    (he : throws e.con T P (std_min e.qos_value q) = true) :
    publish_loop throws T P q (pre ++ e :: post)
      = ((pre ++ [e]).map (fun x => call.publish x.con T P (std_min x.qos_value q)), false) := by
  induction pre with
  | nil => simp [publish_loop, he]
  | cons a rest ih =>
    have ha := hpre a (List.mem_cons_self _ _)
    have hr := ih (fun x hx => hpre x (List.mem_cons_of_mem _ hx))
    simp [publish_loop, ha, hr]

theorem publish_handler_eq (throws : con_sp_t → buffer → buffer → qos → Bool) (st : broker)
    (pid : Option packet_id_t) (o : publish_options) (T P : buffer) :
    publish_handler throws st pid o T P
      = ⟨st,
         (publish_loop throws T P o.get_qos
            (st.subs.filter (fun e => decide (e.topic = T)))).1,
         (publish_loop throws T P o.get_qos
            (st.subs.filter (fun e => decide (e.topic = T)))).2⟩ := by
  simp only [publish_handler, equal_range_tag_topic]

theorem foldl_subscribe_step (sp : con_sp_t) (entries : List (buffer × subscribe_options))
    (acc : List suback_return_code × mi_sub_con) :
    entries.foldl (subscribe_step sp) acc
      = (acc.1 ++ entries.map (fun e => qos_to_suback_return_code e.2.get_qos),
         acc.2 ++ entries.map (fun e => (⟨e.1, sp, e.2.get_qos⟩ : sub_con))) := by
  induction entries generalizing acc with
  | nil => simp
  | cons e rest ih =>
    simp [List.foldl_cons, ih, subscribe_step, mi_sub_con.emplace]

theorem foldl_erase_key (topics : List buffer) (subs : mi_sub_con) :
    topics.foldl (fun s topic => mi_sub_con.erase_key s topic) subs
      = subs.filter (fun e => decide (e.topic ∉ topics)) := by
  induction topics generalizing subs with
  | nil => simp
  | cons t rest ih =>
    rw [List.foldl_cons, ih, erase_key_eq, List.filter_filter]
    apply List.filter_congr
    intro e _
    by_cases h1 : e.topic = t <;> by_cases h2 : e.topic ∈ rest <;> simp [h1, h2]

theorem subscribe_handler_eq (st : broker) (sp : con_sp_t) (p : packet_id_t)
    (entries : List (buffer × subscribe_options)) :
    subscribe_handler st sp p entries
      = ⟨⟨st.connections,
          st.subs ++ entries.map (fun e => (⟨e.1, sp, e.2.get_qos⟩ : sub_con))⟩,
         [call.suback sp p (entries.map (fun e => qos_to_suback_return_code e.2.get_qos))],
         true⟩ := by
  simp only [subscribe_handler, foldl_subscribe_step, List.nil_append]

theorem unsubscribe_handler_eq (st : broker) (sp : con_sp_t) (p : packet_id_t)
    (L : List buffer) :
    unsubscribe_handler st sp p L
      = ⟨⟨st.connections, st.subs.filter (fun e => decide (e.topic ∉ L))⟩,
         [call.unsuback sp p], true⟩ := by
  simp only [unsubscribe_handler, foldl_erase_key]

theorem owned_close (st : broker) (c : con_sp_t) (h : owned st) : owned (st.close c) := by
  intro e he
  simp only [broker.close, close_proc_eq, List.mem_filter, decide_eq_true_eq] at he
  simp only [broker.close, close_proc_eq, Finset.mem_erase]
  exact ⟨he.2, h e he.1⟩

theorem owned_connect (st : broker) (sp : con_sp_t) (h : owned st) :
    owned ⟨insert sp st.connections, st.subs⟩ := by
  intro e he
  exact Finset.mem_insert_of_mem (h e he)

theorem owned_subscribe (st : broker) (sp : con_sp_t) (p : packet_id_t)
    (entries : List (buffer × subscribe_options)) (h : owned st)
    (hsp : sp ∈ st.connections) : owned (subscribe_handler st sp p entries).st := by
  rw [subscribe_handler_eq]
  intro e he
  simp only [List.mem_append, List.mem_map] at he
  rcases he with he | ⟨x, _, hx⟩
  · exact h e he
  · rw [← hx]
    exact hsp

theorem owned_unsubscribe (st : broker) (sp : con_sp_t) (p : packet_id_t)
    (L : List buffer) (h : owned st) : owned (unsubscribe_handler st sp p L).st := by
  rw [unsubscribe_handler_eq]
  intro e he
  simp only [List.mem_filter] at he
  exact h e he.1

theorem owned_step (throws : con_sp_t → buffer → buffer → qos → Bool) (st : broker)
    (sp : con_sp_t) (ev : event) (h : owned st) (hg : subscribe_guard st sp ev = true) :
    owned (server_proc throws st sp ev).st := by
  cases ev with
  | close => exact owned_close st sp h
  | error ec => exact owned_close st sp h
  | connect cid u pw cs ka => exact owned_connect st sp h
  | disconnect => exact owned_close st sp h
  | puback p => exact h
  | pubrec p => exact h
  | pubrel p => exact h
  | pubcomp p => exact h
  | publish pid o T P => exact h
  | subscribe p entries =>
    simp only [subscribe_guard, decide_eq_true_eq] at hg
    exact owned_subscribe st sp p entries h hg
  | unsubscribe p L => exact owned_unsubscribe st sp p L h

theorem owned_run_take (throws : con_sp_t → buffer → buffer → qos → Bool)
    (evs : List (con_sp_t × event)) (st : broker) (h : owned st)
    (hg : subscribers_connected throws st evs = true) (k : Nat) :
    owned (run throws st (evs.take k)) := by
  induction evs generalizing st k with
  | nil => simpa [run] using h
  | cons x rest ih =>
    obtain ⟨sp, ev⟩ := x
    simp only [subscribers_connected, Bool.and_eq_true] at hg
    cases k with
    | zero => simpa [run] using h
    | succ k =>
      simp only [List.take_succ_cons, run]
      exact ih _ (owned_step throws st sp ev h hg.1) hg.2 k

theorem owned_run (throws : con_sp_t → buffer → buffer → qos → Bool)
    (evs : List (con_sp_t × event)) (st : broker) (h : owned st)
    (hg : subscribers_connected throws st evs = true) :
    owned (run throws st evs) := by
  have := owned_run_take throws evs st h hg evs.length
  simpa using this

/-! ## The claims -/

/-- C1: when no `publish` call on a matching entry throws, the publish handler
makes exactly the calls obtained from the registry entries whose topic equals
the published topic `T`, one call per such entry and none for other entries:
the call for an entry goes to that entry's session and carries `T`, the payload
and the QoS `std_min entry.qos pubopts.qos`, which is the smaller of the two
levels.  The handler runs to its end and changes neither variable. -/
theorem publish_fanout (throws : con_sp_t → buffer → buffer → qos → Bool) (st : broker)
    (sp : con_sp_t) (pid : Option packet_id_t) (o : publish_options) (T P : buffer)
    (h : ∀ e ∈ st.subs, e.topic = T → throws e.con T P (std_min e.qos_value o.get_qos) = false) :
    (server_proc throws st sp (.publish pid o T P)).calls
        = (st.subs.filter (fun e => e.topic = T)).map
            (fun e => call.publish e.con T P (std_min e.qos_value o.get_qos))
      ∧ (server_proc throws st sp (.publish pid o T P)).calls.length
        = st.subs.countP (fun e => e.topic = T)
      ∧ (∀ e : sub_con, (std_min e.qos_value o.get_qos).toNat
          = min e.qos_value.toNat o.get_qos.toNat)
      ∧ (server_proc throws st sp (.publish pid o T P)).completed = true
      ∧ (server_proc throws st sp (.publish pid o T P)).st = st := by
  have hl : publish_loop throws T P o.get_qos (st.subs.filter (fun e => decide (e.topic = T)))
      = ((st.subs.filter (fun e => decide (e.topic = T))).map
          (fun e => call.publish e.con T P (std_min e.qos_value o.get_qos)), true) := by
    apply publish_loop_all
    intro e he
    simp only [List.mem_filter, decide_eq_true_eq] at he
    exact h e he.1 he.2
  refine ⟨?_, ?_, fun e => std_min_toNat _ _, ?_, ?_⟩
  · simp only [server_proc, publish_handler_eq, hl]
  · simp only [server_proc, publish_handler_eq, hl, List.length_map,
      List.countP_eq_length_filter]
  · simp only [server_proc, publish_handler_eq, hl]
  · simp only [server_proc, publish_handler_eq]

/-- The scenario of C1: with entries (t1, 1, QoS 0), (t2, 1, QoS 1), (t2, 2, QoS 2), a
publish of t2 / x at QoS 1 makes two calls, x to session 1 at QoS 1 and x to
session 2 at QoS 1. -/
theorem publish_fanout_witness :
    (∀ e ∈ scenario.subs, e.topic = "t2" →
        no_throw e.con "t2" "x" (std_min e.qos_value qos.at_least_once) = false)
      ∧ (server_proc no_throw scenario 3
          (.publish none ⟨false, .at_least_once, false⟩ "t2" "x")).calls
        = [call.publish 1 "t2" "x" .at_least_once, call.publish 2 "t2" "x" .at_least_once] :=
  ⟨fun _ _ _ => rfl,
   (publish_fanout no_throw scenario 3 none ⟨false, .at_least_once, false⟩ "t2" "x"
      (fun _ _ _ => rfl)).1.trans (by decide)⟩

/-- C2: `close_proc` for session `c` leaves the set equal to `S` without `c` and
the registry equal to the entries of `R` whose session is not `c`, in their
order: entries of `c` are removed, the others kept, none added.  If every
entry of `R` on topic `T` belonged to `c`, a publish on `T` that follows makes
no call and runs to its end, whatever the endpoints' `publish` would do. -/
theorem close_proc_removes_session (throws : con_sp_t → buffer → buffer → qos → Bool)
    (S : Finset con_sp_t) (R : mi_sub_con) (c : con_sp_t) :
    (close_proc S R c).1 = S.erase c
      ∧ (∀ x, x ∈ (close_proc S R c).1 ↔ x ∈ S ∧ x ≠ c)
      ∧ (close_proc S R c).2 = R.filter (fun e => decide (e.con ≠ c))
      ∧ (∀ e, e ∈ (close_proc S R c).2 ↔ e ∈ R ∧ e.con ≠ c)
      ∧ (∀ (sp : con_sp_t) (pid : Option packet_id_t) (o : publish_options) (T P : buffer),
          (∀ e ∈ R, e.topic = T → e.con = c) →
          (server_proc throws ⟨(close_proc S R c).1, (close_proc S R c).2⟩ sp
              (.publish pid o T P)).calls = []
            ∧ (server_proc throws ⟨(close_proc S R c).1, (close_proc S R c).2⟩ sp
              (.publish pid o T P)).completed = true) := by
  have h2 : (close_proc S R c).2 = R.filter (fun e => decide (e.con ≠ c)) := by
    rw [close_proc_eq]
  refine ⟨by rw [close_proc_eq], ?_, h2, ?_, ?_⟩
  · intro x
    simp only [close_proc_eq, Finset.mem_erase]
    tauto
  · intro e
    rw [h2]
    simp [List.mem_filter]
  · intro sp pid o T P hT
    have hnil : (close_proc S R c).2.filter (fun e => decide (e.topic = T)) = [] := by
      rw [List.filter_eq_nil_iff]
      intro e he
      rw [h2] at he
      simp only [List.mem_filter, decide_eq_true_eq] at he
      simpa using fun (hte : e.topic = T) => he.2 (hT e he.1 hte)
    simp only [server_proc, publish_handler_eq, hnil, publish_loop, and_self]

/-- The scenario of C2: session 1 is the only subscriber of t1 and is closed; a
publish on t1 then makes no call and runs to its end. -/
theorem close_proc_removes_session_witness :
    (∀ e ∈ [(⟨"t1", 1, .at_most_once⟩ : sub_con)], e.topic = "t1" → e.con = 1)
      ∧ ((server_proc no_throw
          ⟨(close_proc {1} [⟨"t1", 1, .at_most_once⟩] 1).1,
           (close_proc {1} [⟨"t1", 1, .at_most_once⟩] 1).2⟩ 2
          (.publish none ⟨false, .at_most_once, false⟩ "t1" "x")).calls = []
      ∧ (server_proc no_throw
          ⟨(close_proc {1} [⟨"t1", 1, .at_most_once⟩] 1).1,
           (close_proc {1} [⟨"t1", 1, .at_most_once⟩] 1).2⟩ 2
          (.publish none ⟨false, .at_most_once, false⟩ "t1" "x")).completed = true) :=
  ⟨by decide,
   (close_proc_removes_session no_throw {1} [⟨"t1", 1, .at_most_once⟩] 1).2.2.2.2
      2 none ⟨false, .at_most_once, false⟩ "t1" "x" (by decide)⟩

/-- C3: after the unsubscribe handler for the topic list `L`, sent by any
session, the registry holds exactly the entries of the old registry whose
topic is not in `L`, in their order (entries on a listed topic are removed
whatever their session), the session set is unchanged and one `unsuback` went
to the requester; a publish that follows on a topic of `L` makes no call and
runs to its end. -/
theorem unsubscribe_removes_topics (throws : con_sp_t → buffer → buffer → qos → Bool)
    (st : broker) (sp : con_sp_t) (p : packet_id_t) (L : List buffer) :
    (server_proc throws st sp (.unsubscribe p L)).st.subs
        = st.subs.filter (fun e => decide (e.topic ∉ L))
      ∧ (∀ e, e ∈ (server_proc throws st sp (.unsubscribe p L)).st.subs
          ↔ e ∈ st.subs ∧ e.topic ∉ L)
      ∧ (server_proc throws st sp (.unsubscribe p L)).st.connections = st.connections
      ∧ (server_proc throws st sp (.unsubscribe p L)).calls = [call.unsuback sp p]
      ∧ (∀ T ∈ L, ∀ (sp2 : con_sp_t) (pid : Option packet_id_t) (o : publish_options)
          (P : buffer),
          (server_proc throws (server_proc throws st sp (.unsubscribe p L)).st sp2
              (.publish pid o T P)).calls = []
            ∧ (server_proc throws (server_proc throws st sp (.unsubscribe p L)).st sp2
              (.publish pid o T P)).completed = true) := by
  have h1 : (server_proc throws st sp (.unsubscribe p L)).st.subs
      = st.subs.filter (fun e => decide (e.topic ∉ L)) := by
    simp only [server_proc, unsubscribe_handler_eq]
  refine ⟨h1, ?_, by simp only [server_proc, unsubscribe_handler_eq],
    by simp only [server_proc, unsubscribe_handler_eq], ?_⟩
  · intro e
    rw [h1]
    simp [List.mem_filter]
  · intro T hT sp2 pid o P
    have hnil : (server_proc throws st sp (.unsubscribe p L)).st.subs.filter
        (fun e => decide (e.topic = T)) = [] := by
      rw [List.filter_eq_nil_iff]
      intro e he
      rw [h1] at he
      simp only [List.mem_filter, decide_eq_true_eq] at he
      simpa using fun (hte : e.topic = T) => he.2 (hte ▸ hT)
    rw [show server_proc throws (server_proc throws st sp (.unsubscribe p L)).st sp2
        (.publish pid o T P)
        = publish_handler throws (server_proc throws st sp (.unsubscribe p L)).st pid o T P
      from rfl, publish_handler_eq, hnil]
    simp only [publish_loop, and_self]

/-- The scenario of C3: sessions 1 and 2 both hold t1, session 1 unsubscribes
t1; the registry is then empty and a publish on t1 makes no call. -/
theorem unsubscribe_removes_topics_witness :
    "t1" ∈ ["t1"]
      ∧ (server_proc no_throw
          ⟨{1, 2}, [⟨"t1", 1, .at_most_once⟩, ⟨"t1", 2, .at_least_once⟩]⟩ 1
          (.unsubscribe 5 ["t1"])).st.subs = []
      ∧ (server_proc no_throw (server_proc no_throw
          ⟨{1, 2}, [⟨"t1", 1, .at_most_once⟩, ⟨"t1", 2, .at_least_once⟩]⟩ 1
          (.unsubscribe 5 ["t1"])).st 2
          (.publish none ⟨false, .at_least_once, false⟩ "t1" "x")).calls = [] :=
  ⟨by decide, by decide,
   ((unsubscribe_removes_topics no_throw
      ⟨{1, 2}, [⟨"t1", 1, .at_most_once⟩, ⟨"t1", 2, .at_least_once⟩]⟩ 1 5 ["t1"]).2.2.2.2
      "t1" (by decide) 2 none ⟨false, .at_least_once, false⟩ "x").1⟩

/-- C4: the subscribe handler for packet id `p` and `n` requests makes exactly
one call, a `suback` to the requesting session with packet id `p` and a code
list of length `n` whose `i`-th code is `qos_to_suback_return_code` of the
`i`-th requested QoS, a code that grants exactly that QoS. -/
theorem subscribe_suback_codes (throws : con_sp_t → buffer → buffer → qos → Bool)
    (st : broker) (sp : con_sp_t) (p : packet_id_t)
    (entries : List (buffer × subscribe_options)) :
    (server_proc throws st sp (.subscribe p entries)).calls
        = [call.suback sp p (entries.map (fun e => qos_to_suback_return_code e.2.get_qos))]
      ∧ (entries.map (fun e => qos_to_suback_return_code e.2.get_qos)).length = entries.length
      ∧ (∀ i : Nat, (entries.map (fun e => qos_to_suback_return_code e.2.get_qos))[i]?
          = (entries[i]?).map (fun e => qos_to_suback_return_code e.2.get_qos))
      ∧ (∀ q : qos, (qos_to_suback_return_code q).granted = some q) := by
  refine ⟨?_, by simp, ?_, ?_⟩
  · simp only [server_proc, subscribe_handler_eq]
  · intro i
    simp [List.getElem?_map]
  · intro q
    cases q <;> rfl

/-- C8: closing is idempotent.  `close_proc` for `c` applied twice gives the
same set and registry as applied once; applied to a session that is not in the
set and owns no entry it changes nothing; and the close handler after the
disconnect handler or after the error handler of the same session leaves the
state the first handler produced. -/
theorem close_proc_idempotent (throws : con_sp_t → buffer → buffer → qos → Bool)
    (S : Finset con_sp_t) (R : mi_sub_con) (c : con_sp_t) :
    close_proc (close_proc S R c).1 (close_proc S R c).2 c = close_proc S R c
      ∧ (c ∉ S → (∀ e ∈ R, e.con ≠ c) → close_proc S R c = (S, R))
      ∧ (server_proc throws (server_proc throws ⟨S, R⟩ c .disconnect).st c .close).st
          = (server_proc throws ⟨S, R⟩ c .disconnect).st
      ∧ (∀ ec : Nat,
          (server_proc throws (server_proc throws ⟨S, R⟩ c (.error ec)).st c .close).st
            = (server_proc throws ⟨S, R⟩ c (.error ec)).st) := by
  have hi : close_proc (close_proc S R c).1 (close_proc S R c).2 c = close_proc S R c := by
    simp only [close_proc_eq, List.filter_filter, Bool.and_self, Finset.erase_idem]
  refine ⟨hi, ?_, ?_, ?_⟩
  · intro hc hR
    simp only [close_proc_eq, Prod.mk.injEq]
    refine ⟨Finset.erase_eq_of_not_mem hc, ?_⟩
    rw [List.filter_eq_self]
    intro e he
    simpa using hR e he
  · simp only [server_proc, close_handler, disconnect_handler, broker.close, hi]
  · intro ec
    simp only [server_proc, close_handler, error_handler, broker.close, hi]

/-- A session outside the set that owns no entry: `close_proc` changes
nothing. -/
theorem close_proc_idempotent_witness :
    (3 : con_sp_t) ∉ ({1, 2} : Finset con_sp_t)
      ∧ (∀ e ∈ [(⟨"t1", 1, .at_most_once⟩ : sub_con), ⟨"t2", 2, .exactly_once⟩], e.con ≠ 3)
      ∧ close_proc {1, 2} [⟨"t1", 1, .at_most_once⟩, ⟨"t2", 2, .exactly_once⟩] 3
          = ({1, 2}, [⟨"t1", 1, .at_most_once⟩, ⟨"t2", 2, .exactly_once⟩]) :=
  ⟨by decide, by decide,
   (close_proc_idempotent no_throw {1, 2}
      [⟨"t1", 1, .at_most_once⟩, ⟨"t2", 2, .exactly_once⟩] 3).2.1 (by decide) (by decide)⟩

/-- C5: a subscribe never replaces or deletes an entry.  After the subscribe
handler for session `sp` and `n` requests the registry is the old registry
followed by the `n` new entries `(t_i, sp, q_i)`, and the session set is
unchanged.  After `sp` subscribes to `t` at `q1` and again at `q2` the registry
ends with the two entries `(t, sp, q1)` and `(t, sp, q2)`, the number of
entries of `sp` on `t` grew by two, and (with endpoints whose `publish` does
not throw) a publish on `t` then makes, after the calls it made before, one
call to `sp` at `std_min q1 q` and one at `std_min q2 q`, which are the
smaller of `q1` and `q` and the smaller of `q2` and `q` (as levels 0, 1, 2);
from an empty registry these two calls are all its calls. -/
theorem subscribe_appends_entries (throws : con_sp_t → buffer → buffer → qos → Bool)
    (st : broker) (sp : con_sp_t) (p : packet_id_t)
    (entries : List (buffer × subscribe_options)) :
    (server_proc throws st sp (.subscribe p entries)).st.subs
        = st.subs ++ entries.map (fun e => (⟨e.1, sp, e.2.get_qos⟩ : sub_con))
      ∧ (server_proc throws st sp (.subscribe p entries)).st.subs.length
        = st.subs.length + entries.length
      ∧ (server_proc throws st sp (.subscribe p entries)).st.connections = st.connections
      ∧ (∀ (t : buffer) (q1 q2 : qos) (p2 : packet_id_t),
          (server_proc throws (server_proc throws st sp (.subscribe p [(t, ⟨q1⟩)])).st sp
              (.subscribe p2 [(t, ⟨q2⟩)])).st.subs
            = st.subs ++ [⟨t, sp, q1⟩, ⟨t, sp, q2⟩]
          ∧ (server_proc throws (server_proc throws st sp (.subscribe p [(t, ⟨q1⟩)])).st sp
              (.subscribe p2 [(t, ⟨q2⟩)])).st.subs.countP
                (fun e => decide (e.topic = t ∧ e.con = sp))
            = st.subs.countP (fun e => decide (e.topic = t ∧ e.con = sp)) + 2
          ∧ (∀ (sp2 : con_sp_t) (pid : Option packet_id_t) (o : publish_options) (P : buffer),
              (server_proc no_throw
                (server_proc throws (server_proc throws st sp (.subscribe p [(t, ⟨q1⟩)])).st sp
                  (.subscribe p2 [(t, ⟨q2⟩)])).st sp2 (.publish pid o t P)).calls
                = (server_proc no_throw st sp2 (.publish pid o t P)).calls
                  ++ [call.publish sp t P (std_min q1 o.get_qos),
                      call.publish sp t P (std_min q2 o.get_qos)]
              ∧ (std_min q1 o.get_qos).toNat = min q1.toNat o.get_qos.toNat
              ∧ (std_min q2 o.get_qos).toNat = min q2.toNat o.get_qos.toNat)
          ∧ (∀ (S : Finset con_sp_t) (sp2 : con_sp_t) (pid : Option packet_id_t)
              (o : publish_options) (P : buffer),
              (server_proc no_throw
                (server_proc throws (server_proc throws ⟨S, []⟩ sp (.subscribe p [(t, ⟨q1⟩)])).st
                  sp (.subscribe p2 [(t, ⟨q2⟩)])).st sp2 (.publish pid o t P)).calls
                = [call.publish sp t P (std_min q1 o.get_qos),
                   call.publish sp t P (std_min q2 o.get_qos)]
              ∧ (std_min q1 o.get_qos).toNat = min q1.toNat o.get_qos.toNat
              ∧ (std_min q2 o.get_qos).toNat = min q2.toNat o.get_qos.toNat)) := by
  have hs : ∀ (s : broker) (c : con_sp_t) (k : packet_id_t)
      (es : List (buffer × subscribe_options)),
      (server_proc throws s c (.subscribe k es)).st
        = ⟨s.connections, s.subs ++ es.map (fun e => (⟨e.1, c, e.2.get_qos⟩ : sub_con))⟩ :=
    fun s c k es => by simp only [server_proc, subscribe_handler_eq]
  have hp : ∀ (s : broker) (c : con_sp_t) (pid : Option packet_id_t) (o : publish_options)
      (T P : buffer),
      (server_proc no_throw s c (.publish pid o T P)).calls
        = (s.subs.filter (fun e => e.topic = T)).map
            (fun e => call.publish e.con T P (std_min e.qos_value o.get_qos)) := by
    intro s c pid o T P
    have hl := publish_loop_all no_throw T P o.get_qos
      (s.subs.filter (fun e => decide (e.topic = T))) (fun _ _ => rfl)
    simp only [server_proc, publish_handler_eq, hl]
  refine ⟨by rw [hs], by rw [hs]; simp, by rw [hs], ?_⟩
  intro t q1 q2 p2
  have h2 : (server_proc throws (server_proc throws st sp (.subscribe p [(t, ⟨q1⟩)])).st sp
      (.subscribe p2 [(t, ⟨q2⟩)])).st
        = ⟨st.connections, st.subs ++ [⟨t, sp, q1⟩, ⟨t, sp, q2⟩]⟩ := by
    rw [hs, hs]
    simp [subscribe_options.get_qos]
  refine ⟨by rw [h2], ?_, ?_, ?_⟩
  · rw [h2]
    simp [List.countP_append, List.countP_cons]
  · intro sp2 pid o P
    refine ⟨?_, ?_, ?_⟩
    case refine_2 => generalize o.get_qos = q; cases q1 <;> cases q <;> decide
    case refine_3 => generalize o.get_qos = q; cases q2 <;> cases q <;> decide
    rw [hp, hp, h2]
    simp [List.filter_append, List.filter_cons]
  · intro S sp2 pid o P
    have h3 : (server_proc throws (server_proc throws ⟨S, []⟩ sp (.subscribe p [(t, ⟨q1⟩)])).st
        sp (.subscribe p2 [(t, ⟨q2⟩)])).st = ⟨S, [⟨t, sp, q1⟩, ⟨t, sp, q2⟩]⟩ := by
      rw [hs, hs]
      simp [subscribe_options.get_qos]
    refine ⟨?_, ?_, ?_⟩
    case refine_2 => generalize o.get_qos = q; cases q1 <;> cases q <;> decide
    case refine_3 => generalize o.get_qos = q; cases q2 <;> cases q <;> decide
    rw [hp, h3]
    simp [List.filter_cons]

/-- A subscribe from a session that never connected leaves an entry whose owner
is not in the session set: the state reached from the initial state by that
single event violates the ownership invariant. -/
theorem subscribe_before_connect_orphans :
    ¬ owned (run no_throw broker.init [(1, .subscribe 1 [("t1", ⟨.at_most_once⟩)])]) := by
  decide

/-- C6, amended: in every state reached from the empty session set and empty
registry by a sequence of events in which each subscribe event comes from a
session that is in the session set when it is handled, every entry's session
is in the session set. -/
theorem reachable_owned (throws : con_sp_t → buffer → buffer → qos → Bool)
    (evs : List (con_sp_t × event))
    (h : subscribers_connected throws broker.init evs = true) :
    owned (run throws broker.init evs) :=
  owned_run throws evs broker.init (by intro e he; cases he) h

/-- A trace with connects, subscribes, a publish, an unsubscribe, a disconnect
and a close in which every subscriber is connected. -/
theorem reachable_owned_witness :
    subscribers_connected no_throw broker.init
        [(1, .connect "cid1" none none true 60),
         (1, .subscribe 1 [("t1", ⟨.at_most_once⟩), ("t2", ⟨.at_least_once⟩)]),
         (2, .connect "cid2" none none true 60),
         (2, .subscribe 1 [("t2", ⟨.exactly_once⟩)]),
         (1, .publish (some 2) ⟨false, .at_least_once, false⟩ "t2" "x"),
         (2, .unsubscribe 3 ["t1"]),
         (1, .disconnect),
         (1, .close)] = true
      ∧ owned (run no_throw broker.init
        [(1, .connect "cid1" none none true 60),
         (1, .subscribe 1 [("t1", ⟨.at_most_once⟩), ("t2", ⟨.at_least_once⟩)]),
         (2, .connect "cid2" none none true 60),
         (2, .subscribe 1 [("t2", ⟨.exactly_once⟩)]),
         (1, .publish (some 2) ⟨false, .at_least_once, false⟩ "t2" "x"),
         (2, .unsubscribe 3 ["t1"]),
         (1, .disconnect),
         (1, .close)]) :=
  ⟨by decide, reachable_owned no_throw _ (by decide)⟩

/-- Session 1 is not in the session set, yet its subscribe inserts an entry, its
unsubscribe removes the entry of session 2, its publish is fanned out to
session 2, and the session set stays as it was. -/
theorem unconnected_session_accepted :
    (1 : con_sp_t) ∉ ({2} : Finset con_sp_t)
      ∧ (server_proc no_throw ⟨{2}, [⟨"t", 2, .at_least_once⟩]⟩ 1
          (.subscribe 7 [("u", ⟨.at_most_once⟩)])).st
        = ⟨{2}, [⟨"t", 2, .at_least_once⟩, ⟨"u", 1, .at_most_once⟩]⟩
      ∧ (server_proc no_throw ⟨{2}, [⟨"t", 2, .at_least_once⟩]⟩ 1
          (.unsubscribe 8 ["t"])).st = ⟨{2}, []⟩
      ∧ (server_proc no_throw ⟨{2}, [⟨"t", 2, .at_least_once⟩]⟩ 1
          (.publish none ⟨false, .at_least_once, false⟩ "t" "x")).calls
        = [call.publish 2 "t" "x" .at_least_once] := by
  decide

/-- C7, amended: the handlers do not consult the session set.  For a session
`c` that is not in the set, a subscribe appends one entry per request owned by
`c` and sends the suback, an unsubscribe removes the entries on the listed
topics and sends the unsuback, a publish leaves the registry as it is and makes
the calls it would make were `c` in the set; in all three cases the session
set is unchanged and `c` is still outside it. -/
theorem unconnected_handled_as_connected
    (throws : con_sp_t → buffer → buffer → qos → Bool)
    (S : Finset con_sp_t) (R : mi_sub_con) (c : con_sp_t) (h : c ∉ S) :
    (∀ (p : packet_id_t) (entries : List (buffer × subscribe_options)),
        server_proc throws ⟨S, R⟩ c (.subscribe p entries)
            = ⟨⟨S, R ++ entries.map (fun e => (⟨e.1, c, e.2.get_qos⟩ : sub_con))⟩,
               [call.suback c p
                  (entries.map (fun e => qos_to_suback_return_code e.2.get_qos))],
               true⟩
          ∧ c ∉ (server_proc throws ⟨S, R⟩ c (.subscribe p entries)).st.connections)
      ∧ (∀ (p : packet_id_t) (L : List buffer),
        server_proc throws ⟨S, R⟩ c (.unsubscribe p L)
            = ⟨⟨S, R.filter (fun e => decide (e.topic ∉ L))⟩, [call.unsuback c p], true⟩
          ∧ c ∉ (server_proc throws ⟨S, R⟩ c (.unsubscribe p L)).st.connections)
      ∧ (∀ (pid : Option packet_id_t) (o : publish_options) (T P : buffer),
        (server_proc throws ⟨S, R⟩ c (.publish pid o T P)).st = ⟨S, R⟩
          ∧ (server_proc throws ⟨S, R⟩ c (.publish pid o T P)).calls
            = (server_proc throws ⟨insert c S, R⟩ c (.publish pid o T P)).calls
          ∧ (server_proc throws ⟨S, R⟩ c (.publish pid o T P)).completed
            = (server_proc throws ⟨insert c S, R⟩ c (.publish pid o T P)).completed
          ∧ c ∉ (server_proc throws ⟨S, R⟩ c (.publish pid o T P)).st.connections) := by
  refine ⟨?_, ?_, ?_⟩
  · intro p entries
    refine ⟨?_, by simpa only [server_proc, subscribe_handler_eq] using h⟩
    simp only [server_proc, subscribe_handler_eq]
  · intro p L
    refine ⟨?_, by simpa only [server_proc, unsubscribe_handler_eq] using h⟩
    simp only [server_proc, unsubscribe_handler_eq]
  · intro pid o T P
    exact ⟨rfl, rfl, rfl, h⟩

/-- Session 3 is not in the set: its subscribe is acknowledged and stored. -/
theorem unconnected_handled_as_connected_witness :
    (3 : con_sp_t) ∉ ({1, 2} : Finset con_sp_t)
      ∧ server_proc no_throw ⟨{1, 2}, [⟨"t1", 1, .at_most_once⟩]⟩ 3
          (.subscribe 9 [("t1", ⟨.exactly_once⟩)])
        = ⟨⟨{1, 2}, [⟨"t1", 1, .at_most_once⟩, ⟨"t1", 3, .exactly_once⟩]⟩,
           [call.suback 3 9 [suback_return_code.success_maximum_qos_2]], true⟩ :=
  ⟨by decide,
   ((unconnected_handled_as_connected no_throw {1, 2} [⟨"t1", 1, .at_most_once⟩] 3
      (by decide)).1 9 [("t1", ⟨.exactly_once⟩)]).1⟩

/-- Sessions 1 and 2 both hold topic t and the `publish` call of session 1
throws: the handler makes that one call, none to session 2, and does not run
to its end. -/
theorem publish_throw_skips_later_subscriber :
    (server_proc (fun c _ _ _ => c == 1)
        ⟨{1, 2}, [⟨"t", 1, .at_most_once⟩, ⟨"t", 2, .at_most_once⟩]⟩ 3
        (.publish none ⟨false, .at_most_once, false⟩ "t" "x")).calls
        = [call.publish 1 "t" "x" .at_most_once]
      ∧ (server_proc (fun c _ _ _ => c == 1)
        ⟨{1, 2}, [⟨"t", 1, .at_most_once⟩, ⟨"t", 2, .at_most_once⟩]⟩ 3
        (.publish none ⟨false, .at_most_once, false⟩ "t" "x")).completed = false := by
  decide

/-- C9, amended: if the entries matching the published topic are
`pre ++ e :: post` in registry order, no call for an entry of `pre` throws and
the call for `e` throws, then the handler has made the calls for `pre` and for
`e` and no other call (none for `post`), it does not run to its end (the
exception leaves the handler), and the registry and the session set are
unchanged. -/
theorem publish_stops_at_throw (throws : con_sp_t → buffer → buffer → qos → Bool)
    (st : broker) (sp : con_sp_t) (pid : Option packet_id_t) (o : publish_options)
    (T P : buffer) (pre : List sub_con) (e : sub_con) (post : List sub_con)
    (hm : st.subs.filter (fun x => x.topic = T) = pre ++ e :: post)
    (hpre : ∀ x ∈ pre, throws x.con T P (std_min x.qos_value o.get_qos) = false)
    (he : throws e.con T P (std_min e.qos_value o.get_qos) = true) :
    (server_proc throws st sp (.publish pid o T P)).calls
        = (pre ++ [e]).map (fun x => call.publish x.con T P (std_min x.qos_value o.get_qos))
      ∧ (server_proc throws st sp (.publish pid o T P)).completed = false
      ∧ (server_proc throws st sp (.publish pid o T P)).st = st := by
  have hl := publish_loop_throw throws T P o.get_qos pre e post hpre he
  refine ⟨?_, ?_, rfl⟩
  · simp only [server_proc, publish_handler_eq, hm, hl]
  · simp only [server_proc, publish_handler_eq, hm, hl]

/-- Three subscribers of topic t, the call of the second one throws: calls to
the first and the second, none to the third. -/
theorem publish_stops_at_throw_witness :
    (List.filter (fun x => decide (x.topic = "t"))
        [(⟨"t", 1, .at_least_once⟩ : sub_con), ⟨"u", 1, .at_most_once⟩,
          ⟨"t", 2, .exactly_once⟩, ⟨"t", 3, .at_most_once⟩]
        = [⟨"t", 1, .at_least_once⟩] ++ ⟨"t", 2, .exactly_once⟩ :: [⟨"t", 3, .at_most_once⟩])
      ∧ (server_proc (fun c _ _ _ => c == 2)
          ⟨{1, 2, 3}, [⟨"t", 1, .at_least_once⟩, ⟨"u", 1, .at_most_once⟩,
            ⟨"t", 2, .exactly_once⟩, ⟨"t", 3, .at_most_once⟩]⟩ 1
          (.publish none ⟨false, .at_least_once, false⟩ "t" "x")).calls
        = [call.publish 1 "t" "x" .at_least_once, call.publish 2 "t" "x" .at_least_once] :=
  ⟨by decide,
   (publish_stops_at_throw (fun c _ _ _ => c == 2)
      ⟨{1, 2, 3}, [⟨"t", 1, .at_least_once⟩, ⟨"u", 1, .at_most_once⟩,
        ⟨"t", 2, .exactly_once⟩, ⟨"t", 3, .at_most_once⟩]⟩ 1 none
      ⟨false, .at_least_once, false⟩ "t" "x"
      [⟨"t", 1, .at_least_once⟩] ⟨"t", 2, .exactly_once⟩ [⟨"t", 3, .at_most_once⟩]
      (by decide) (by decide) (by decide)).1.trans (by decide)⟩

/-- C10: from a state in which every entry's session is in the session set, the
same holds after the connect handler, the unsubscribe handler, the publish
handler, `close_proc` (and the close, error and disconnect handlers that run
it) for any session and arguments, and after the subscribe handler when the
subscribing session is in the set; hence on every trace in which each
subscribe comes from a session then in the set, it holds after every event. -/
theorem handlers_preserve_owned (throws : con_sp_t → buffer → buffer → qos → Bool)
    (st : broker) (h : owned st) :
    (∀ (sp : con_sp_t) (cid : buffer) (u pw : Option buffer) (cs : Bool) (ka : Nat),
        owned (server_proc throws st sp (.connect cid u pw cs ka)).st)
      ∧ (∀ (sp : con_sp_t) (p : packet_id_t) (L : List buffer),
        owned (server_proc throws st sp (.unsubscribe p L)).st)
      ∧ (∀ (sp : con_sp_t) (pid : Option packet_id_t) (o : publish_options) (T P : buffer),
        owned (server_proc throws st sp (.publish pid o T P)).st)
      ∧ (∀ c : con_sp_t,
        owned ⟨(close_proc st.connections st.subs c).1, (close_proc st.connections st.subs c).2⟩)
      ∧ (∀ (sp : con_sp_t) (ec : Nat),
        owned (server_proc throws st sp .close).st
          ∧ owned (server_proc throws st sp (.error ec)).st
          ∧ owned (server_proc throws st sp .disconnect).st)
      ∧ (∀ (sp : con_sp_t) (p : packet_id_t) (entries : List (buffer × subscribe_options)),
        sp ∈ st.connections → owned (server_proc throws st sp (.subscribe p entries)).st)
      ∧ (∀ evs : List (con_sp_t × event), subscribers_connected throws st evs = true →
        ∀ k : Nat, owned (run throws st (evs.take k))) := by
  refine ⟨?_, ?_, ?_, ?_, ?_, ?_, ?_⟩
  · intro sp cid u pw cs ka
    exact owned_connect st sp h
  · intro sp p L
    exact owned_unsubscribe st sp p L h
  · intro sp pid o T P
    exact h
  · intro c
    exact owned_close st c h
  · intro sp ec
    exact ⟨owned_close st sp h, owned_close st sp h, owned_close st sp h⟩
  · intro sp p entries hsp
    exact owned_subscribe st sp p entries h hsp
  · intro evs hg k
    exact owned_run_take throws evs st h hg k

/-- From the scenario state, session 2 (connected) subscribes, session 1
disconnects and session 3 connects: the invariant holds after two events. -/
theorem handlers_preserve_owned_witness :
    owned scenario
      ∧ subscribers_connected no_throw scenario
          [(2, .subscribe 4 [("t3", ⟨.at_most_once⟩)]), (1, .disconnect),
           (3, .connect "cid3" none none true 30)] = true
      ∧ owned (run no_throw scenario
          (List.take 2 [(2, .subscribe 4 [("t3", ⟨.at_most_once⟩)]), (1, .disconnect),
           (3, .connect "cid3" none none true 30)])) :=
  ⟨by decide, by decide,
   (handlers_preserve_owned no_throw scenario (by decide)).2.2.2.2.2.2
      [(2, .subscribe 4 [("t3", ⟨.at_most_once⟩)]), (1, .disconnect),
       (3, .connect "cid3" none none true 30)] (by decide) 2⟩

end MqttBroker
